import Mathlib

/-!
Shallow embedding of the price-tracking dashboard's core logic: the weekly
price store (`src/lib/api.ts`) and the client-side aggregation pipeline
(`src/app/page.js`, the heatmap / moving-average / standard-deviation /
normalization helpers).

Modelling conventions:
* JavaScript numbers are modelled as exact rationals `ℚ`; the square root in
  the standard deviation lives in `ℝ`.
* An ISO timestamp string is modelled by the integer that
  `new Date(s).getTime()` would produce for it, since the code only ever
  compares timestamps through that value.
* `Array.prototype.sort` with a comparator is a stable comparison sort; it is
  modelled by `List.insertionSort`, which is stable.
* A JavaScript object used as a dictionary is modelled either as a total
  function (absent key ≡ `[]`, which the code's `if (!x) x = []` guard makes
  behaviourally identical) or, where the code enumerates `Object.entries`, as
  an association list with pairwise-distinct keys.
* The heatmap's `priceMap` keys records by the string `item + "," + hour`;
  since the rendered hour contains no comma, that key determines the
  `(item, hour)` pair uniquely, so the map is modelled as indexed by the pair.
-/

/-- Embedding of JavaScript `Math.round`: half-way cases round toward
positive infinity, i.e. `⌊x + 1/2⌋`. -/
def jsRound (x : ℚ) : Int := ⌊x + 1/2⌋

/-- Embedding of `roundToTwo` (src/lib/api.ts line 36):
`Math.round(num * 100) / 100`. -/
def roundToTwo (num : ℚ) : ℚ := ((jsRound (num * 100) : ℚ)) / 100

/-- A stored price record (`PriceRecord` in src/lib/api.ts): the ISO
timestamp string is represented by its parsed epoch-millisecond value. -/
structure PriceRecord where
  timestamp : Int
  price : ℚ
deriving DecidableEq

/-- The comparator used by `saveWeeklyPrices` (src/lib/api.ts line 126):
`new Date(a.timestamp).getTime() - new Date(b.timestamp).getTime()`. -/
abbrev tsLe (a b : PriceRecord) : Prop := a.timestamp ≤ b.timestamp

instance : DecidableRel tsLe :=
  fun a b => inferInstanceAs (Decidable (a.timestamp ≤ b.timestamp))

instance : IsTotal PriceRecord tsLe := ⟨fun a b => Int.le_total _ _⟩

instance : IsTrans PriceRecord tsLe := ⟨fun _ _ _ h h2 => le_trans h h2⟩

/-- The `combinedData.items[item].sort(...)` step of `saveWeeklyPrices`:
a stable sort by ascending timestamp. -/
def sortByTimestamp (l : List PriceRecord) : List PriceRecord :=
  List.insertionSort tsLe l

/-- The `RawData` shape of src/lib/api.ts: a weekly bucket mapping item names
to their record sequences.  An item that never occurs maps to `[]`. -/
structure RawData where
  items : String → List PriceRecord

/-- A freshly fetched series as iterated by `Object.entries(newData.items)`:
an association list of item names with their new records, keys distinct. -/
abbrev NewSeries := List (String × List PriceRecord)

/-- The merge loop of `saveWeeklyPrices` (src/lib/api.ts lines 108-129):
starting from a copy of the existing bucket, for each item of the new data
append its new records to the item's current sequence and re-sort that
sequence by timestamp. -/
def mergeItems (existing : RawData) (newData : NewSeries) : RawData :=
  ⟨newData.foldl
    (fun acc e => Function.update acc e.1 (sortByTimestamp (acc e.1 ++ e.2)))
    existing.items⟩

/-- Embedding of `loadWeeklyPrices` (src/lib/api.ts lines 75-97).  The file
system is modelled by `store`: `none` means no file exists for the week key
(`!fs.existsSync(filePath)`), `some (Except.ok b)` a file whose JSON parses
to bucket `b`, and `some (Except.error e)` a file whose read or parse throws
(the `catch` block rethrows such errors). -/
def loadWeeklyPrices (store : String → Option (Except String RawData))
    (key : String) : Except String RawData :=
  match store key with
  | none => Except.ok ⟨fun _ => []⟩
  | some (Except.ok b) => Except.ok b
  | some (Except.error e) => Except.error e

/-- Embedding of `saveWeeklyPrices` (src/lib/api.ts lines 100-137): load the
existing bucket for the week key, merge the new data into it, and persist the
combined bucket (the returned value is what `writeFile` persists). -/
def saveWeeklyPrices (store : String → Option (Except String RawData))
    (key : String) (newData : NewSeries) : Except String RawData :=
  match loadWeeklyPrices store key with
  | Except.ok existing => Except.ok (mergeItems existing newData)
  | Except.error e => Except.error e

/-- The response-conversion loop of `fetchPricesFromAPI` (src/lib/api.ts
lines 54-65): for each `(item, price)` of the upstream response build the
single record `{timestamp: now, price: roundToTwo(price)}`.  The upstream
response `apiData.result.data` is an object, modelled as an association list
with distinct keys; `t` is the fetch time. -/
def fetchPricesFromAPI (resp : List (String × ℚ)) (t : Int) : NewSeries :=
  resp.map (fun e => (e.1, [⟨t, roundToTwo e.2⟩]))

/-- Embedding of `getStandardDeviation` (src/app/page.js lines 130-140):
population standard deviation, `0` on empty input.  The `reduce`-based mean
and the mean of squared deviations are exact rational computations; only the
final `Math.sqrt` leaves `ℚ`. -/
noncomputable def getStandardDeviation (array : List ℚ) : ℝ :=
  if array = [] then 0
  else
    Real.sqrt
      (((array.map (fun x => (x - array.sum / (array.length : ℚ)) ^ 2)).sum
        / (array.length : ℚ) : ℚ))

/-- Embedding of `getMovingAverage` (src/app/page.js lines 143-157): `[]` when
the input is empty or the window size is not positive; otherwise, for each
index `i` from `windowSize - 1` to `data.length - 1`, the sum of
`data.slice(i - windowSize + 1, i + 1)` divided by `windowSize`. -/
def getMovingAverage (data : List ℚ) (windowSize : Int) : List ℚ :=
  if data = [] ∨ windowSize ≤ 0 then []
  else
    (List.range' (windowSize.toNat - 1) (data.length - (windowSize.toNat - 1))).map
      (fun i => ((data.take (i + 1)).drop (i + 1 - windowSize.toNat)).sum / (windowSize : ℚ))

/-- Embedding of `Math.min(...data)` over a list (the `[]` value is
irrelevant: the code only ever uses it through `normalizeData`, which
returns `[]` on `[]`). -/
def listMin : List ℚ → ℚ
  | [] => 0
  | x :: xs => xs.foldl min x

/-- Embedding of `Math.max(...data)` over a list, same convention as `listMin`. -/
def listMax : List ℚ → ℚ
  | [] => 0
  | x :: xs => xs.foldl max x

/-- Embedding of `normalizeData` (src/app/page.js lines 184-190): rescale to
0-100 by `(value - min) / (max - min) * 100`, or the constant `50` when all
values are equal. -/
def normalizeData (data : List ℚ) : List ℚ :=
  let mn := listMin data
  let mx := listMax data
  let span := mx - mn
  if span = 0 then data.map (fun _ => 50)
  else data.map (fun value => (value - mn) / span * 100)

/-- A flattened price observation (`FlatDataItem` in src/app/page.js): item
name, parsed timestamp, price, UTC hour and UTC day. -/
structure FlatDataItem where
  item : String
  timestamp : Int
  price : ℚ
  hour : Int
  day : String
deriving DecidableEq

/-- The hour-range filter of the heatmap (src/app/page.js lines 545-547):
keep the records whose `hour` lies in `[lo, hi]` inclusive. -/
def heatmapFilteredData (rawData : List FlatDataItem) (lo hi : Int) :
    List FlatDataItem :=
  rawData.filter (fun d => decide (lo ≤ d.hour) && decide (d.hour ≤ hi))

/-- First-occurrence deduplication, the effect of `[...new Set(xs)]`; the
`seen` accumulator holds the values already emitted. -/
def setDedupAux : List String → List String → List String
  | [], _ => []
  | x :: xs, seen =>
    if x ∈ seen then setDedupAux xs seen else x :: setDedupAux xs (x :: seen)

/-- Embedding of `[...new Set(xs)]`. -/
def setDedup (l : List String) : List String := setDedupAux l []

/-- The heatmap's row labels (src/app/page.js line 549):
`[...new Set(filteredData.map(d => d.item))].sort()`. -/
def heatmapItems (rawData : List FlatDataItem) (lo hi : Int) : List String :=
  List.insertionSort (· ≤ ·) (setDedup ((heatmapFilteredData rawData lo hi).map (·.item)))

/-- The heatmap's column labels (src/app/page.js lines 550-553):
`Array.from({length: hi - lo + 1}, (_, i) => lo + i)`; a non-positive length
yields the empty enumeration. -/
def heatmapHours (lo hi : Int) : List Int :=
  (List.range (hi - lo + 1).toNat).map (fun (i : Nat) => lo + (i : Int))

/-- One heatmap cell (src/app/page.js lines 555-573): the `priceMap`
accumulates, for the key of `(item, hour)`, the sum and the count of the
matching filtered records; the cell is the rounded average when the entry
exists and `null` otherwise. -/
def heatmapCell (filtered : List FlatDataItem) (item : String) (hour : Int) :
    Option ℚ :=
  let group := filtered.filter (fun d => decide (d.item = item) && decide (d.hour = hour))
  if group.isEmpty then none
  else some (roundToTwo ((group.map (·.price)).sum / (group.length : ℚ)))

/-- The heatmap matrix `z` (src/app/page.js lines 567-573): one row per
sorted item, one column per hour of the range. -/
def heatmapZ (rawData : List FlatDataItem) (lo hi : Int) :
    List (List (Option ℚ)) :=
  (heatmapItems rawData lo hi).map (fun item =>
    (heatmapHours lo hi).map (fun hour =>
      heatmapCell (heatmapFilteredData rawData lo hi) item hour))

/-- Specification-side description of a heatmap cell, following the spec's
words: group the flat records by `(item, hour)` over the whole input, and
the cell is the arithmetic mean of the group's prices rounded to 2 decimals,
or `null` for an empty group. -/
def heatmapCellSpec (rawData : List FlatDataItem) (item : String) (hour : Int) :
    Option ℚ :=
  let group := rawData.filter (fun d => decide (d.item = item) && decide (d.hour = hour))
  if group.isEmpty then none
  else some (roundToTwo ((group.map (·.price)).sum / (group.length : ℚ)))

/-- Embedding of `item.charAt(0).toUpperCase() + item.slice(1)` for ASCII items. -/
def capitalize (s : String) : String :=
  match s.data with
  | [] => ""
  | c :: cs => String.mk (c.toUpper :: cs)

/-- The value of the `heatmapData` memo (src/app/page.js lines 584-589),
minus the `text` field, which duplicates `z` as display strings. -/
structure HeatmapData where
  x : List Int
  y : List String
  z : List (List (Option ℚ))

/-- Packaging of the heatmap computation (src/app/page.js lines 542-590). -/
def heatmapData (rawData : List FlatDataItem) (lo hi : Int) : HeatmapData :=
  ⟨heatmapHours lo hi,
   (heatmapItems rawData lo hi).map capitalize,
   heatmapZ rawData lo hi⟩

/-- The concrete scenario of the spec: exactly two records for `potion` at
hour 5, with prices 2 and 4. -/
def potionScenario : List FlatDataItem :=
  [⟨"potion", 100, 2, 5, "2025-06-01"⟩, ⟨"potion", 200, 4, 5, "2025-06-01"⟩]

/-! ### Generic list helpers -/

lemma getD_map_getElem {α β : Type} (l : List α) (f : α → β) (i : Nat) (d : β)
    (h : i < l.length) : (l.map f).getD i d = f l[i] := by
  rw [List.getD_eq_getElem?_getD, List.getElem?_map, List.getElem?_eq_getElem h]
  rfl

/-! ### Moving average -/

/-- Claim C3: for `0 < windowSize ≤ len(v)` the moving average has length
`len(v) - windowSize + 1` and its `i`-th element is the average of the
`windowSize` values ending at index `i + windowSize - 1`; the result is empty
when `windowSize ≤ 0` or the input is empty. -/
theorem getMovingAverage_spec (data : List ℚ) (windowSize : Int) :
    (0 < windowSize → windowSize ≤ (data.length : Int) →
      (getMovingAverage data windowSize).length = data.length - windowSize.toNat + 1
      ∧ ∀ i : Nat, i < (getMovingAverage data windowSize).length →
          (getMovingAverage data windowSize).getD i 0
            = ((data.drop i).take windowSize.toNat).sum / (windowSize : ℚ))
    ∧ ((windowSize ≤ 0 ∨ data = []) → getMovingAverage data windowSize = []) := by
  constructor
  · intro h1 h2
    have hne : data ≠ [] := by
      intro h
      rw [h] at h2
      simp at h2
      omega
    have hcond : ¬(data = [] ∨ windowSize ≤ 0) := by
      push_neg
      exact ⟨hne, h1⟩
    have hw1 : 1 ≤ windowSize.toNat := by omega
    have hwlen : windowSize.toNat ≤ data.length := by omega
    constructor
    · rw [getMovingAverage, if_neg hcond]
      simp only [List.length_map, List.length_range']
      omega
    · intro i hi
      rw [getMovingAverage, if_neg hcond] at hi ⊢
      simp only [List.length_map, List.length_range'] at hi
      have hi' : i < (List.range' (windowSize.toNat - 1)
          (data.length - (windowSize.toNat - 1))).length := by
        rw [List.length_range']
        exact hi
      rw [getD_map_getElem _ _ _ _ hi']
      rw [List.getElem_range']
      have e1 : windowSize.toNat - 1 + 1 * i + 1 = windowSize.toNat + i := by omega
      rw [e1]
      have e2 : windowSize.toNat + i - windowSize.toNat = i := by omega
      rw [e2, List.drop_take]
      have e3 : windowSize.toNat + i - i = windowSize.toNat := by omega
      rw [e3]
  · intro h
    rw [getMovingAverage, if_pos]
    tauto

/-- Witness for C3 at `data = [1, 2, 3]`, `windowSize = 2`. -/
theorem getMovingAverage_spec_witness :
    (getMovingAverage [(1 : ℚ), 2, 3] 2).length = [(1 : ℚ), 2, 3].length - (2 : Int).toNat + 1
    ∧ ∀ i : Nat, i < (getMovingAverage [(1 : ℚ), 2, 3] 2).length →
        (getMovingAverage [(1 : ℚ), 2, 3] 2).getD i 0
          = (([(1 : ℚ), 2, 3].drop i).take (2 : Int).toNat).sum / ((2 : Int) : ℚ) :=
  (getMovingAverage_spec [(1 : ℚ), 2, 3] 2).1 (by decide) (by decide)

/-- Claim C9: a window size strictly larger than the (non-empty) input's
length yields the empty sequence. -/
theorem getMovingAverage_large_window (data : List ℚ) (windowSize : Int)
    (hne : data ≠ []) (hw : (data.length : Int) < windowSize) :
    getMovingAverage data windowSize = [] := by
  have hcond : ¬(data = [] ∨ windowSize ≤ 0) := by
    push_neg
    constructor
    · exact hne
    · have : (0 : Int) ≤ data.length := by positivity
      omega
  rw [getMovingAverage, if_neg hcond]
  have : data.length - (windowSize.toNat - 1) = 0 := by omega
  rw [this]
  rfl

/-- Witness for C9 at `data = [1, 2]`, `windowSize = 5`. -/
theorem getMovingAverage_large_window_witness :
    getMovingAverage [(1 : ℚ), 2] 5 = [] :=
  getMovingAverage_large_window [(1 : ℚ), 2] 5 (by simp) (by decide)

/-! ### Minimum / maximum of a spread list -/

lemma foldl_min_le_init (l : List ℚ) (a : ℚ) : l.foldl min a ≤ a := by
  induction l generalizing a with
  | nil => exact le_refl a
  | cons x xs ih => exact le_trans (ih (min a x)) (min_le_left a x)

lemma foldl_min_le_mem (l : List ℚ) (a x : ℚ) (h : x ∈ l) : l.foldl min a ≤ x := by
  induction l generalizing a with
  | nil => cases h
  | cons y ys ih =>
    rcases List.mem_cons.mp h with h1 | h2
    · subst h1
      exact le_trans (foldl_min_le_init ys (min a x)) (min_le_right a x)
    · exact ih (min a y) h2

lemma foldl_min_choice (l : List ℚ) (a : ℚ) :
    l.foldl min a = a ∨ l.foldl min a ∈ l := by
  induction l generalizing a with
  | nil => exact Or.inl rfl
  | cons y ys ih =>
    rcases ih (min a y) with h | h
    · rcases min_choice a y with h2 | h2
      · rw [List.foldl_cons, h, h2]
        exact Or.inl rfl
      · rw [List.foldl_cons, h, h2]
        exact Or.inr (List.mem_cons_self y ys)
    · exact Or.inr (List.mem_cons_of_mem y h)

lemma init_le_foldl_max (l : List ℚ) (a : ℚ) : a ≤ l.foldl max a := by
  induction l generalizing a with
  | nil => exact le_refl a
  | cons x xs ih => exact le_trans (le_max_left a x) (ih (max a x))

lemma mem_le_foldl_max (l : List ℚ) (a x : ℚ) (h : x ∈ l) : x ≤ l.foldl max a := by
  induction l generalizing a with
  | nil => cases h
  | cons y ys ih =>
    rcases List.mem_cons.mp h with h1 | h2
    · subst h1
      exact le_trans (le_max_right a x) (init_le_foldl_max ys (max a x))
    · exact ih (max a y) h2

lemma foldl_max_choice (l : List ℚ) (a : ℚ) :
    l.foldl max a = a ∨ l.foldl max a ∈ l := by
  induction l generalizing a with
  | nil => exact Or.inl rfl
  | cons y ys ih =>
    rcases ih (max a y) with h | h
    · rcases max_choice a y with h2 | h2
      · rw [List.foldl_cons, h, h2]
        exact Or.inl rfl
      · rw [List.foldl_cons, h, h2]
        exact Or.inr (List.mem_cons_self y ys)
    · exact Or.inr (List.mem_cons_of_mem y h)

lemma listMin_le_of_mem (l : List ℚ) (x : ℚ) (h : x ∈ l) : listMin l ≤ x := by
  cases l with
  | nil => cases h
  | cons a t =>
    rcases List.mem_cons.mp h with h1 | h2
    · subst h1
      exact foldl_min_le_init t x
    · exact foldl_min_le_mem t a x h2

lemma le_listMax_of_mem (l : List ℚ) (x : ℚ) (h : x ∈ l) : x ≤ listMax l := by
  cases l with
  | nil => cases h
  | cons a t =>
    rcases List.mem_cons.mp h with h1 | h2
    · subst h1
      exact init_le_foldl_max t x
    · exact mem_le_foldl_max t a x h2

lemma listMin_mem (l : List ℚ) (h : l ≠ []) : listMin l ∈ l := by
  cases l with
  | nil => exact absurd rfl h
  | cons a t =>
    rcases foldl_min_choice t a with h1 | h1
    · rw [listMin, h1]
      exact List.mem_cons_self a t
    · rw [listMin]
      exact List.mem_cons_of_mem a h1

lemma listMax_mem (l : List ℚ) (h : l ≠ []) : listMax l ∈ l := by
  cases l with
  | nil => exact absurd rfl h
  | cons a t =>
    rcases foldl_max_choice t a with h1 | h1
    · rw [listMax, h1]
      exact List.mem_cons_self a t
    · rw [listMax]
      exact List.mem_cons_of_mem a h1

/-! ### Normalization -/

/-- Claim C6: on a non-empty input every output of `normalizeData` lies in
`[0, 100]`; when the spread is non-degenerate each output is
`(value - min) / (max - min) * 100`; and when all inputs are equal every
output is exactly `50`. -/
theorem normalizeData_spec (v : List ℚ) (hv : v ≠ []) :
    (∀ y ∈ normalizeData v, 0 ≤ y ∧ y ≤ 100)
    ∧ (normalizeData v).length = v.length
    ∧ (listMax v - listMin v ≠ 0 →
        ∀ i : Nat, i < v.length →
          (normalizeData v).getD i 0
            = (v.getD i 0 - listMin v) / (listMax v - listMin v) * 100)
    ∧ ((∀ a ∈ v, ∀ b ∈ v, a = b) → ∀ y ∈ normalizeData v, y = 50) := by
  have hspan : 0 ≤ listMax v - listMin v := by
    have h1 : listMin v ≤ listMax v :=
      le_trans (listMin_le_of_mem v _ (listMax_mem v hv)) (le_refl _)
    linarith
  refine ⟨?_, ?_, ?_, ?_⟩
  · intro y hy
    rw [normalizeData] at hy
    by_cases hz : listMax v - listMin v = 0
    · rw [if_pos hz] at hy
      rcases List.mem_map.mp hy with ⟨x, _, hset⟩
      rw [← hset]
      norm_num
    · rw [if_neg hz] at hy
      rcases List.mem_map.mp hy with ⟨x, hx, hset⟩
      have hpos : 0 < listMax v - listMin v := lt_of_le_of_ne hspan (Ne.symm hz)
      have hlow : listMin v ≤ x := listMin_le_of_mem v x hx
      have hhigh : x ≤ listMax v := le_listMax_of_mem v x hx
      rw [← hset]
      constructor
      · have hnum : 0 ≤ x - listMin v := by linarith
        exact mul_nonneg (div_nonneg hnum (le_of_lt hpos)) (by norm_num)
      · have hle1 : (x - listMin v) / (listMax v - listMin v) ≤ 1 := by
          rw [div_le_one hpos]
          linarith
        nlinarith
  · rw [normalizeData]
    by_cases hz : listMax v - listMin v = 0
    · rw [if_pos hz, List.length_map]
    · rw [if_neg hz, List.length_map]
  · intro hz i hilt
    rw [normalizeData, if_neg hz]
    rw [getD_map_getElem _ _ _ _ hilt]
    rw [List.getD_eq_getElem?_getD, List.getElem?_eq_getElem hilt]
    rfl
  · intro hall y hy
    have hz : listMax v - listMin v = 0 := by
      have h1 : listMax v = listMin v :=
        hall (listMax v) (listMax_mem v hv) (listMin v) (listMin_mem v hv)
      rw [h1]
      ring
    rw [normalizeData, if_pos hz] at hy
    rcases List.mem_map.mp hy with ⟨x, _, hset⟩
    exact hset.symm

/-- Witness for C6 at `v = [1, 3]`. -/
theorem normalizeData_spec_witness :
    (∀ y ∈ normalizeData [(1 : ℚ), 3], 0 ≤ y ∧ y ≤ 100)
    ∧ (normalizeData [(1 : ℚ), 3]).length = [(1 : ℚ), 3].length
    ∧ (listMax [(1 : ℚ), 3] - listMin [(1 : ℚ), 3] ≠ 0 →
        ∀ i : Nat, i < [(1 : ℚ), 3].length →
          (normalizeData [(1 : ℚ), 3]).getD i 0
            = ([(1 : ℚ), 3].getD i 0 - listMin [(1 : ℚ), 3])
              / (listMax [(1 : ℚ), 3] - listMin [(1 : ℚ), 3]) * 100)
    ∧ ((∀ a ∈ [(1 : ℚ), 3], ∀ b ∈ [(1 : ℚ), 3], a = b) →
        ∀ y ∈ normalizeData [(1 : ℚ), 3], y = 50) :=
  normalizeData_spec [(1 : ℚ), 3] (by simp)

/-! ### Weekly store: merge, save, load -/

lemma merge_foldl_frame (newData : NewSeries) (f : String → List PriceRecord)
    (item : String) (h : item ∉ newData.map Prod.fst) :
    newData.foldl
      (fun (acc : String → List PriceRecord) e =>
        Function.update acc e.1 (sortByTimestamp (acc e.1 ++ e.2)))
      f item = f item := by
  induction newData generalizing f with
  | nil => rfl
  | cons e rest ih =>
    simp only [List.map_cons, List.mem_cons] at h
    push_neg at h
    rw [List.foldl_cons, ih _ h.2]
    exact Function.update_noteq h.1 _ _

lemma merge_foldl_eq (newData : NewSeries) (f : String → List PriceRecord)
    (item : String) (ps : List PriceRecord)
    (hnodup : (newData.map Prod.fst).Nodup) (hmem : (item, ps) ∈ newData) :
    newData.foldl
      (fun (acc : String → List PriceRecord) e =>
        Function.update acc e.1 (sortByTimestamp (acc e.1 ++ e.2)))
      f item = sortByTimestamp (f item ++ ps) := by
  induction newData generalizing f with
  | nil => cases hmem
  | cons e rest ih =>
    simp only [List.map_cons, List.nodup_cons] at hnodup
    rcases List.mem_cons.mp hmem with he | hr
    · cases he
      rw [List.foldl_cons, merge_foldl_frame rest _ item hnodup.1,
        Function.update_same]
    · have hitem_in : item ∈ rest.map Prod.fst :=
        List.mem_map.mpr ⟨(item, ps), hr, rfl⟩
      have hne : item ≠ e.1 := fun hEq => hnodup.1 (hEq ▸ hitem_in)
      rw [List.foldl_cons, ih _ hnodup.2 hr, Function.update_noteq hne]

/-- Claim C4: merging newly fetched series into an existing bucket appends
each item's new records to its stored ones and re-sorts by timestamp
ascending, with no deduplication: the merged sequence is sorted and its
length is the old length plus the number of appended records. -/
theorem saveWeeklyPrices_spec (store : String → Option (Except String RawData))
    (key : String) (existing : RawData) (newData : NewSeries)
    (item : String) (newPrices : List PriceRecord)
    (hstore : store key = some (Except.ok existing))
    (hnodup : (newData.map Prod.fst).Nodup)
    (hmem : (item, newPrices) ∈ newData) :
    saveWeeklyPrices store key newData = Except.ok (mergeItems existing newData)
    ∧ (mergeItems existing newData).items item
        = sortByTimestamp (existing.items item ++ newPrices)
    ∧ List.Sorted tsLe ((mergeItems existing newData).items item)
    ∧ ((mergeItems existing newData).items item).length
        = (existing.items item).length + newPrices.length := by
  have hmain : (mergeItems existing newData).items item
      = sortByTimestamp (existing.items item ++ newPrices) :=
    merge_foldl_eq newData existing.items item newPrices hnodup hmem
  refine ⟨?_, hmain, ?_, ?_⟩
  · rw [saveWeeklyPrices, loadWeeklyPrices, hstore]
  · rw [hmain]
    exact List.sorted_insertionSort tsLe _
  · rw [hmain, sortByTimestamp, (List.perm_insertionSort tsLe _).length_eq,
      List.length_append]

/-- Witness for C4: existing bucket holding one `potion` record, new data
appending a second one. -/
theorem saveWeeklyPrices_spec_witness :
    saveWeeklyPrices (fun _ => some (Except.ok ⟨fun _ => [⟨300, 7⟩]⟩))
        "prices_2025-06-01_to_2025-06-07.json" [("potion", [⟨100, 2⟩])]
      = Except.ok (mergeItems ⟨fun _ => [⟨300, 7⟩]⟩ [("potion", [⟨100, 2⟩])])
    ∧ (mergeItems ⟨fun _ => [⟨300, 7⟩]⟩ [("potion", [⟨100, 2⟩])]).items "potion"
        = sortByTimestamp ((⟨fun _ => [⟨300, 7⟩]⟩ : RawData).items "potion" ++ [⟨100, 2⟩])
    ∧ List.Sorted tsLe
        ((mergeItems ⟨fun _ => [⟨300, 7⟩]⟩ [("potion", [⟨100, 2⟩])]).items "potion")
    ∧ ((mergeItems ⟨fun _ => [⟨300, 7⟩]⟩ [("potion", [⟨100, 2⟩])]).items "potion").length
        = ((⟨fun _ => [⟨300, 7⟩]⟩ : RawData).items "potion").length + [(⟨100, 2⟩ : PriceRecord)].length :=
  saveWeeklyPrices_spec (fun _ => some (Except.ok ⟨fun _ => [⟨300, 7⟩]⟩))
    "prices_2025-06-01_to_2025-06-07.json" ⟨fun _ => [⟨300, 7⟩]⟩
    [("potion", [⟨100, 2⟩])] "potion" [⟨100, 2⟩] rfl (by simp)
    (List.mem_singleton.mpr rfl)

/-- Claim C10: the merge leaves the record sequences of all items absent from
the new series untouched. -/
theorem mergeItems_frame (existing : RawData) (newData : NewSeries)
    (item : String) (h : item ∉ newData.map Prod.fst) :
    (mergeItems existing newData).items item = existing.items item :=
  merge_foldl_frame newData existing.items item h

/-- Witness for C10: an item absent from the new series keeps its records. -/
theorem mergeItems_frame_witness :
    (mergeItems ⟨fun _ => [⟨1, 2⟩]⟩ [("potion", [⟨3, 4⟩])]).items "sword"
      = (⟨fun _ => [⟨1, 2⟩]⟩ : RawData).items "sword" :=
  mergeItems_frame ⟨fun _ => [⟨1, 2⟩]⟩ [("potion", [⟨3, 4⟩])] "sword" (by simp)

/-- Claim C5: merging one series into a bucket holding the other (as the
save loop does) equals sorting the concatenation directly; and up to the
order of equal-timestamp records fixed by the final sort, the merge is
commutative and associative: both sides are timestamp-sorted permutations
of each other. -/
theorem merge_sort_concat (a b c : List PriceRecord) (item : String) :
    (mergeItems ⟨Function.update (fun _ => []) item a⟩ [(item, b)]).items item
        = sortByTimestamp (a ++ b)
    ∧ (sortByTimestamp (a ++ b)).Perm (sortByTimestamp (b ++ a))
    ∧ List.Sorted tsLe (sortByTimestamp (a ++ b))
    ∧ (sortByTimestamp (sortByTimestamp (a ++ b) ++ c)).Perm
        (sortByTimestamp (a ++ sortByTimestamp (b ++ c))) := by
  refine ⟨?_, ?_, ?_, ?_⟩
  · simp only [mergeItems, List.foldl_cons, List.foldl_nil,
      Function.update_same]
  · exact ((List.perm_insertionSort tsLe (a ++ b)).trans
      List.perm_append_comm).trans (List.perm_insertionSort tsLe (b ++ a)).symm
  · exact List.sorted_insertionSort tsLe _
  · have h1 : (sortByTimestamp (sortByTimestamp (a ++ b) ++ c)).Perm
        ((a ++ b) ++ c) :=
      (List.perm_insertionSort tsLe _).trans
        ((List.perm_insertionSort tsLe (a ++ b)).append_right c)
    have h2 : (sortByTimestamp (a ++ sortByTimestamp (b ++ c))).Perm
        (a ++ (b ++ c)) :=
      (List.perm_insertionSort tsLe _).trans
        ((List.perm_insertionSort tsLe (b ++ c)).append_left a)
    rw [List.append_assoc] at h1
    exact h1.trans h2.symm

/-- Claim C8: loading a week key for which no bucket is stored yields the
empty bucket and never signals an error. -/
theorem loadWeeklyPrices_missing (store : String → Option (Except String RawData))
    (key : String) (h : store key = none) :
    loadWeeklyPrices store key = Except.ok ⟨fun _ => []⟩
    ∧ ∀ e : String, loadWeeklyPrices store key ≠ Except.error e := by
  constructor
  · rw [loadWeeklyPrices, h]
  · intro e
    rw [loadWeeklyPrices, h]
    exact fun hcontra => Except.noConfusion hcontra

/-- Witness for C8: a store with no file at all. -/
theorem loadWeeklyPrices_missing_witness :
    loadWeeklyPrices (fun _ => none) "prices_2025-06-01_to_2025-06-07.json"
      = Except.ok ⟨fun _ => []⟩
    ∧ ∀ e : String,
        loadWeeklyPrices (fun _ => none) "prices_2025-06-01_to_2025-06-07.json"
          ≠ Except.error e :=
  loadWeeklyPrices_missing (fun _ => none)
    "prices_2025-06-01_to_2025-06-07.json" rfl

/-! ### Fetch conversion -/

/-- Claim C7: converting a successful upstream response keeps every item
exactly once (the key list is preserved, so distinct response keys stay
distinct), and gives each item the single record stamped with the fetch
time and the 2-decimal-rounded upstream price. -/
theorem fetchPricesFromAPI_spec (resp : List (String × ℚ)) (t : Int) :
    (fetchPricesFromAPI resp t).map Prod.fst = resp.map Prod.fst
    ∧ (∀ item p, (item, p) ∈ resp →
        (item, [⟨t, roundToTwo p⟩]) ∈ fetchPricesFromAPI resp t)
    ∧ ((resp.map Prod.fst).Nodup → ((fetchPricesFromAPI resp t).map Prod.fst).Nodup) := by
  have hkeys : (fetchPricesFromAPI resp t).map Prod.fst = resp.map Prod.fst := by
    rw [fetchPricesFromAPI, List.map_map]
    rfl
  refine ⟨hkeys, ?_, ?_⟩
  · intro item p hmem
    exact List.mem_map.mpr ⟨(item, p), hmem, rfl⟩
  · intro hnodup
    rw [hkeys]
    exact hnodup

/-- Witness for C7, the spec's scenario: upstream `{cocain: 10.123, sword: 5}`
fetched at time `0` yields `cocain ↦ [{timestamp: 0, price: 10.12}]` and
`sword ↦ [{timestamp: 0, price: 5}]`, each item appearing exactly once. -/
theorem fetchPricesFromAPI_spec_witness :
    ("cocain", [(⟨0, 1012/100⟩ : PriceRecord)])
        ∈ fetchPricesFromAPI [("cocain", (10123 : ℚ)/1000), ("sword", 5)] 0
    ∧ ("sword", [(⟨0, 5⟩ : PriceRecord)])
        ∈ fetchPricesFromAPI [("cocain", (10123 : ℚ)/1000), ("sword", 5)] 0
    ∧ (fetchPricesFromAPI [("cocain", (10123 : ℚ)/1000), ("sword", 5)] 0).map Prod.fst
        = ["cocain", "sword"] := by
  refine ⟨?_, ?_, ?_⟩
  · have h := (fetchPricesFromAPI_spec [("cocain", (10123 : ℚ)/1000), ("sword", 5)] 0).2.1
      "cocain" ((10123 : ℚ)/1000) (by simp)
    rw [show roundToTwo ((10123 : ℚ)/1000) = 1012/100 from by
      norm_num [roundToTwo, jsRound]] at h
    exact h
  · have h := (fetchPricesFromAPI_spec [("cocain", (10123 : ℚ)/1000), ("sword", 5)] 0).2.1
      "sword" 5 (by simp)
    rw [show roundToTwo (5 : ℚ) = 5 from by norm_num [roundToTwo, jsRound]] at h
    exact h
  · exact (fetchPricesFromAPI_spec [("cocain", (10123 : ℚ)/1000), ("sword", 5)] 0).1.trans rfl

/-! ### Standard deviation -/

lemma list_sum_eq_zero_iff (l : List ℚ) (h : ∀ x ∈ l, 0 ≤ x) :
    l.sum = 0 ↔ ∀ x ∈ l, x = 0 := by
  induction l with
  | nil => simp
  | cons a t ih =>
    have ha : 0 ≤ a := h a (List.mem_cons_self a t)
    have ht : ∀ x ∈ t, 0 ≤ x := fun x hx => h x (List.mem_cons_of_mem a hx)
    have hts : 0 ≤ t.sum := List.sum_nonneg ht
    simp only [List.sum_cons, List.mem_cons]
    constructor
    · intro hsum
      have h1 : a = 0 := by linarith
      have h2 : t.sum = 0 := by linarith
      intro x hx
      rcases hx with rfl | hx
      · exact h1
      · exact (ih ht).mp h2 x hx
    · intro hall
      have h1 : a = 0 := hall a (Or.inl rfl)
      have h2 : t.sum = 0 := (ih ht).mpr (fun x hx => hall x (Or.inr hx))
      rw [h1, h2, add_zero]

lemma list_sum_const (l : List ℚ) (c : ℚ) (h : ∀ x ∈ l, x = c) :
    l.sum = (l.length : ℚ) * c := by
  induction l with
  | nil => simp
  | cons a t ih =>
    have ha : a = c := h a (List.mem_cons_self a t)
    have ht : t.sum = (t.length : ℚ) * c :=
      ih (fun x hx => h x (List.mem_cons_of_mem a hx))
    rw [List.sum_cons, ha, ht, List.length_cons]
    push_cast
    ring

lemma dev_sum_zero_iff (v : List ℚ) (hv : v ≠ []) :
    (v.map (fun x => (x - v.sum / (v.length : ℚ)) ^ 2)).sum = 0
      ↔ ∀ a ∈ v, ∀ b ∈ v, a = b := by
  have hlen : 0 < v.length := List.length_pos.mpr hv
  have hn : (0 : ℚ) < (v.length : ℚ) := by exact_mod_cast hlen
  have hdev_nonneg : ∀ y ∈ v.map (fun x => (x - v.sum / (v.length : ℚ)) ^ 2), 0 ≤ y := by
    intro y hy
    rcases List.mem_map.mp hy with ⟨x, _, rfl⟩
    exact sq_nonneg _
  constructor
  · intro hs
    have hall0 := (list_sum_eq_zero_iff _ hdev_nonneg).mp hs
    have hallm : ∀ x ∈ v, x = v.sum / (v.length : ℚ) := by
      intro x hx
      have h2 : (x - v.sum / (v.length : ℚ)) ^ 2 = 0 :=
        hall0 _ (List.mem_map.mpr ⟨x, hx, rfl⟩)
      have h3 : x - v.sum / (v.length : ℚ) = 0 := sq_eq_zero_iff.mp h2
      linarith
    exact fun a ha b hb => (hallm a ha).trans (hallm b hb).symm
  · intro hall
    rcases List.exists_mem_of_ne_nil v hv with ⟨y0, hy0⟩
    have hally : ∀ x ∈ v, x = y0 := fun x hx => hall x hx y0 hy0
    have hsum : v.sum = (v.length : ℚ) * y0 := list_sum_const v y0 hally
    have hmy : v.sum / (v.length : ℚ) = y0 := by
      rw [hsum, mul_div_cancel_left₀ _ (ne_of_gt hn)]
    apply (list_sum_eq_zero_iff _ hdev_nonneg).mpr
    intro y hy
    rcases List.mem_map.mp hy with ⟨x, hx, rfl⟩
    rw [hally x hx, hmy]
    ring

/-- Claim C2: the standard deviation is nonnegative; on non-empty input it is
zero exactly when all elements are equal; and it is `0` on empty and on
single-element input. -/
theorem getStandardDeviation_spec (v : List ℚ) :
    (v ≠ [] →
      0 ≤ getStandardDeviation v
      ∧ (getStandardDeviation v = 0 ↔ ∀ a ∈ v, ∀ b ∈ v, a = b))
    ∧ getStandardDeviation [] = 0
    ∧ (∀ x : ℚ, getStandardDeviation [x] = 0) := by
  refine ⟨?_, ?_, ?_⟩
  · intro hv
    have hlen : 0 < v.length := List.length_pos.mpr hv
    have hn : (0 : ℚ) < (v.length : ℚ) := by exact_mod_cast hlen
    have hdev_nonneg : ∀ y ∈ v.map (fun x => (x - v.sum / (v.length : ℚ)) ^ 2), 0 ≤ y := by
      intro y hy
      rcases List.mem_map.mp hy with ⟨x, _, rfl⟩
      exact sq_nonneg _
    have hq_nonneg :
        0 ≤ (v.map (fun x => (x - v.sum / (v.length : ℚ)) ^ 2)).sum / (v.length : ℚ) :=
      div_nonneg (List.sum_nonneg hdev_nonneg) hn.le
    have hσ : getStandardDeviation v
        = Real.sqrt
            (((v.map (fun x => (x - v.sum / (v.length : ℚ)) ^ 2)).sum
              / (v.length : ℚ) : ℚ)) := by
      rw [getStandardDeviation, if_neg hv]
    constructor
    · rw [hσ]
      exact Real.sqrt_nonneg _
    · rw [hσ, Real.sqrt_eq_zero (by exact_mod_cast hq_nonneg), Rat.cast_eq_zero,
        div_eq_zero_iff]
      constructor
      · rintro (hs | hbad)
        · exact (dev_sum_zero_iff v hv).mp hs
        · exact absurd hbad (ne_of_gt hn)
      · intro hall
        exact Or.inl ((dev_sum_zero_iff v hv).mpr hall)
  · rw [getStandardDeviation, if_pos rfl]
  · intro x
    rw [getStandardDeviation, if_neg (List.cons_ne_nil x [])]
    norm_num

/-- Witness for C2 at `v = [1, 2]`. -/
theorem getStandardDeviation_spec_witness :
    0 ≤ getStandardDeviation [(1 : ℚ), 2]
    ∧ (getStandardDeviation [(1 : ℚ), 2] = 0
        ↔ ∀ a ∈ [(1 : ℚ), 2], ∀ b ∈ [(1 : ℚ), 2], a = b) :=
  (getStandardDeviation_spec [(1 : ℚ), 2]).1 (by simp)

/-! ### Heatmap -/

lemma setDedupAux_mem (l : List String) (seen : List String) (a : String) :
    a ∈ setDedupAux l seen ↔ a ∈ l ∧ a ∉ seen := by
  induction l generalizing seen with
  | nil => simp [setDedupAux]
  | cons x xs ih =>
    by_cases hx : x ∈ seen
    · rw [setDedupAux, if_pos hx, ih]
      simp only [List.mem_cons]
      constructor
      · rintro ⟨h1, h2⟩
        exact ⟨Or.inr h1, h2⟩
      · rintro ⟨h1 | h1, h2⟩
        · subst h1
          exact absurd hx h2
        · exact ⟨h1, h2⟩
    · rw [setDedupAux, if_neg hx]
      simp only [List.mem_cons, ih (x :: seen)]
      constructor
      · rintro (rfl | ⟨h1, h2⟩)
        · exact ⟨Or.inl rfl, hx⟩
        · push_neg at h2
          exact ⟨Or.inr h1, h2.2⟩
      · rintro ⟨h1 | h1, h2⟩
        · exact Or.inl h1
        · by_cases hax : a = x
          · exact Or.inl hax
          · refine Or.inr ⟨h1, ?_⟩
            push_neg
            exact ⟨hax, h2⟩

lemma setDedupAux_nodup (l : List String) (seen : List String) :
    (setDedupAux l seen).Nodup := by
  induction l generalizing seen with
  | nil => simp [setDedupAux]
  | cons x xs ih =>
    by_cases hx : x ∈ seen
    · rw [setDedupAux, if_pos hx]
      exact ih seen
    · rw [setDedupAux, if_neg hx]
      refine List.nodup_cons.mpr ⟨?_, ih (x :: seen)⟩
      intro hmem
      exact ((setDedupAux_mem xs (x :: seen) x).mp hmem).2 (List.mem_cons_self x seen)

lemma setDedup_mem (l : List String) (a : String) : a ∈ setDedup l ↔ a ∈ l := by
  rw [setDedup, setDedupAux_mem]
  simp

lemma setDedup_nodup (l : List String) : (setDedup l).Nodup := setDedupAux_nodup l []

lemma mem_heatmapFilteredData (rawData : List FlatDataItem) (lo hi : Int)
    (d : FlatDataItem) :
    d ∈ heatmapFilteredData rawData lo hi
      ↔ d ∈ rawData ∧ lo ≤ d.hour ∧ d.hour ≤ hi := by
  rw [heatmapFilteredData, List.mem_filter]
  simp [Bool.and_eq_true, decide_eq_true_eq]

lemma mem_heatmapHours (lo hi h : Int) :
    h ∈ heatmapHours lo hi ↔ lo ≤ h ∧ h ≤ hi := by
  rw [heatmapHours]
  simp only [List.mem_map, List.mem_range]
  constructor
  · rintro ⟨i, hilt, rfl⟩
    omega
  · rintro ⟨h1, h2⟩
    refine ⟨(h - lo).toNat, by omega, by omega⟩

lemma mem_heatmapItems (rawData : List FlatDataItem) (lo hi : Int) (s : String) :
    s ∈ heatmapItems rawData lo hi
      ↔ ∃ d ∈ rawData, lo ≤ d.hour ∧ d.hour ≤ hi ∧ d.item = s := by
  rw [heatmapItems, List.mem_insertionSort, setDedup_mem, List.mem_map]
  constructor
  · rintro ⟨d, hd, rfl⟩
    rw [mem_heatmapFilteredData] at hd
    exact ⟨d, hd.1, hd.2.1, hd.2.2, rfl⟩
  · rintro ⟨d, hd, h1, h2, rfl⟩
    exact ⟨d, (mem_heatmapFilteredData rawData lo hi d).mpr ⟨hd, h1, h2⟩, rfl⟩

lemma heatmapCell_eq_spec (rawData : List FlatDataItem) (lo hi : Int)
    (item : String) (h : Int) (h1 : lo ≤ h) (h2 : h ≤ hi) :
    heatmapCell (heatmapFilteredData rawData lo hi) item h
      = heatmapCellSpec rawData item h := by
  rw [heatmapCell, heatmapCellSpec]
  have hgroup : (heatmapFilteredData rawData lo hi).filter
        (fun d => decide (d.item = item) && decide (d.hour = h))
      = rawData.filter (fun d => decide (d.item = item) && decide (d.hour = h)) := by
    rw [heatmapFilteredData, List.filter_filter]
    apply List.filter_congr
    intro d _
    by_cases hd : d.hour = h
    · rw [hd, decide_eq_true h1, decide_eq_true h2]
      simp
    · rw [decide_eq_false hd]
      simp
  rw [hgroup]

/-- Claim C1: the heatmap keeps exactly the records whose hour lies in
`[lo, hi]`; its rows are the distinct item names of those records sorted
lexicographically; its columns enumerate the hours `lo..hi` inclusive; and
its matrix assigns to `(item, hour)` the 2-decimal-rounded mean price of
that group's records, or `null` when the group is empty. -/
theorem heatmap_spec (rawData : List FlatDataItem) (lo hi : Int) :
    (∀ d, d ∈ heatmapFilteredData rawData lo hi
        ↔ d ∈ rawData ∧ lo ≤ d.hour ∧ d.hour ≤ hi)
    ∧ List.Sorted (· ≤ ·) (heatmapItems rawData lo hi)
    ∧ (heatmapItems rawData lo hi).Nodup
    ∧ (∀ s, s ∈ heatmapItems rawData lo hi
        ↔ ∃ d ∈ rawData, lo ≤ d.hour ∧ d.hour ≤ hi ∧ d.item = s)
    ∧ (∀ h, h ∈ heatmapHours lo hi ↔ lo ≤ h ∧ h ≤ hi)
    ∧ (heatmapHours lo hi).length = (hi - lo + 1).toNat
    ∧ (∀ j : Nat, j < (heatmapHours lo hi).length →
        (heatmapHours lo hi).getD j 0 = lo + j)
    ∧ heatmapZ rawData lo hi
        = (heatmapItems rawData lo hi).map (fun s =>
            (heatmapHours lo hi).map (fun h => heatmapCellSpec rawData s h)) := by
  refine ⟨mem_heatmapFilteredData rawData lo hi, ?_, ?_,
    mem_heatmapItems rawData lo hi, mem_heatmapHours lo hi, ?_, ?_, ?_⟩
  · exact List.sorted_insertionSort (· ≤ ·) _
  · exact ((List.perm_insertionSort (· ≤ ·) _).nodup_iff).mpr (setDedup_nodup _)
  · rw [heatmapHours, List.length_map, List.length_range]
  · intro j hj
    rw [heatmapHours] at hj ⊢
    rw [List.length_map] at hj
    rw [getD_map_getElem _ _ _ _ hj, List.getElem_range]
  · rw [heatmapZ]
    apply List.map_congr_left
    intro s _
    apply List.map_congr_left
    intro h hh
    rcases (mem_heatmapHours lo hi h).mp hh with ⟨h1, h2⟩
    exact heatmapCell_eq_spec rawData lo hi s h h1 h2

set_option maxRecDepth 8000 in
/-- Witness for C1, the spec's scenario: exactly two `potion` records at hour
5 with prices 2 and 4, heatmap over `[0, 23]`: the single row has `some 3`
(the rounded mean) in the hour-5 column and `none` everywhere else. -/
theorem heatmap_spec_witness :
    heatmapZ potionScenario 0 23
        = [List.replicate 5 none ++ some 3 :: List.replicate 18 none]
    ∧ List.Sorted (· ≤ ·) (heatmapItems potionScenario 0 23)
    ∧ (heatmapHours 0 23).length = ((23 : Int) - 0 + 1).toNat
    ∧ ((5 : Int) ∈ heatmapHours 0 23 ↔ (0 : Int) ≤ 5 ∧ (5 : Int) ≤ 23)
    ∧ heatmapZ potionScenario 0 23
        = (heatmapItems potionScenario 0 23).map (fun s =>
            (heatmapHours 0 23).map (fun h => heatmapCellSpec potionScenario s h)) := by
  refine ⟨?_, (heatmap_spec potionScenario 0 23).2.1,
    (heatmap_spec potionScenario 0 23).2.2.2.2.2.1,
    (heatmap_spec potionScenario 0 23).2.2.2.2.1 5,
    (heatmap_spec potionScenario 0 23).2.2.2.2.2.2.2⟩
  norm_num [heatmapZ, heatmapItems, heatmapHours, heatmapCell, heatmapFilteredData,
    setDedup, setDedupAux, potionScenario, List.range, List.range.loop, roundToTwo,
    jsRound, List.replicate]
